import Mathlib

/-!
Shallow embedding of `comicsocr/src/api.py` (the ingestion and aggregation
pipeline of the comic-OCR repository).

External collaborators are modelled abstractly, exactly at the protocol level
the code uses:
* the recognizer (`Reader.read`) is modelled by the list of text lines
  attached to each file node (`Node.script`);
* the archive tool (`patoolib.test_archive` / `extract_archive`) is modelled
  by the `intact` / `extractOk` booleans and the `contents` forest attached to
  a file node;
* the filesystem is modelled by a forest of `Node`s; the set of temporary
  workspace directories currently existing on disk is tracked in
  `St.tempDirs`, and the rows appended to the CSV output sink in `St.rows`.

Python `None`-or-value returns are modelled with `Option`; raised exceptions
with `Except`.  A falsy `outputPath` (Python `None` or `""`) is modelled as
`none`.  Recursion depth of the mutually recursive pair
`read_from_directory` / `read_from_archive_file` is driven by an explicit
fuel parameter so that every definition is structurally recursive and
kernel-reducible; running out of fuel yields the distinguished error
`Err.outOfFuel`, which no theorem ever treats as a source behaviour.
-/

deriving instance DecidableEq for Except

namespace Comicsocr

/-- `IMAGE_EXTENSIONS` from api.py. -/
def IMAGE_EXTENSIONS : List String := [".jpg", ".png", ".bmp", ".tiff"]

/-- `ARCHIVE_EXTENSIONS` from api.py. -/
def ARCHIVE_EXTENSIONS : List String := [".rar", ".cbr", ".zip"]

/-- Characters after the last `'/'` (the posix basename character list). -/
def afterLastSlash (cs : List Char) : List Char :=
  (cs.reverse.takeWhile (fun c => c ≠ '/')).reverse

/-- The extension of a basename character list: from its last dot, unless
only dots precede that dot (posixpath `splitext` semantics). -/
def extFromBase (base : List Char) : String :=
  match base.reverse.findIdx? (fun c => c = '.') with
  | none => ""
  | some k =>
    let dotPos := base.length - 1 - k
    if (base.take dotPos).any (fun c => c ≠ '.') then ⟨base.drop dotPos⟩ else ""

/-- `os.path.splitext(p)[1]`: the extension (including the dot) of the last
path component, where a component consisting only of leading dots has no
extension (posixpath semantics, `sep = '/'`). -/
def extOf (p : String) : String :=
  extFromBase (afterLastSlash p.data)

/-- Python `a.endswith('/')`. -/
def pyEndsSlash (a : String) : Bool :=
  match a.data.getLast? with
  | some c => c = '/'
  | none => false

/-- `os.path.join(a, b)` (posixpath, single relative component as used in
api.py): `b` absolute wins; otherwise a `'/'` is inserted unless `a` is empty
or already ends with one. -/
def pathJoin (a b : String) : String :=
  if b.data.head? = some '/' then b
  else if a = "" then a ++ b
  else if pyEndsSlash a then a ++ b
  else a ++ "/" ++ b

/-- The second half of `os.path.dirname`: strip trailing slashes from the
head `p[:i]` unless it consists only of slashes. -/
def dirnameStrip (head : List Char) : String :=
  if head.all (fun c => c = '/') then ⟨head⟩
  else ⟨(head.reverse.dropWhile (fun c => c = '/')).reverse⟩

/-- `os.path.dirname(p)` (posixpath): everything before the last `'/'`, with
trailing slashes stripped unless the head consists only of slashes. -/
def dirname (p : String) : String :=
  match p.data.reverse.findIdx? (fun c => c = '/') with
  | none => ""
  | some k => dirnameStrip (p.data.take (p.data.length - k))

/-- Characters after the last `'/'` or `'\\'` (ntpath-style tail). -/
def afterLastSep (cs : List Char) : List Char :=
  (cs.reverse.takeWhile (fun c => ¬(c = '/' ∨ c = '\\'))).reverse

/-- `_get_file_name` from api.py: `ntpath.split(path)` and return the tail,
or the basename of the head when the tail is empty (path ending in a
separator).  Drive letters are not modelled; the pipeline only ever passes
slash-separated paths. -/
def get_file_name (p : String) : String :=
  if (afterLastSep p.data).isEmpty then
    ⟨afterLastSep ((p.data.reverse.dropWhile (fun c => c = '/' ∨ c = '\\')).reverse)⟩
  else ⟨afterLastSep p.data⟩

/-- The structured configuration object (`comicsocr.src.config.Config`).
Its fields play no role in the control flow the claims are about, so it is
modelled as an opaque-free, fieldless structure. -/
structure ConfigObj where
deriving DecidableEq, Repr

/-- The dynamic value passed as `config`: a `Config` object, a Python `str`,
a Python `dict` (entries modelled as key/value strings), or a value of any
other type (`other`). -/
inductive ConfigValue where
  | config (c : ConfigObj)
  | str (s : String)
  | dict (entries : List (String × String))
  | other
deriving DecidableEq, Repr

/-- Python `s.startswith('{')`. -/
def startsBrace (s : String) : Bool :=
  match s.data with
  | c :: _ => c = '\x7b'
  | [] => false

/-- Outcome of the config-shape dispatch in `read_from_file` (api.py lines
43–53). -/
inductive ConfigOutcome where
  | useAsIs        -- `type(config) == type(Config())`: used directly
  | normalized     -- dict, or str starting with a brace: `_create_config_from_dict`
  | unsupported    -- any other type: `raise Exception('Unsupported config type')`
  | unboundReader  -- str not starting with a brace: no branch assigns `reader`
deriving DecidableEq, Repr

/-- The dispatch on `type(config)` in `read_from_file`.  A string that does
not start with `'{'` matches the `type(config) == str` arm but fails its
inner `startswith` test, so no branch runs and `reader` is left unassigned. -/
def configDispatch : ConfigValue → ConfigOutcome
  | .config _ => .useAsIs
  | .str s => if startsBrace s then .normalized else .unboundReader
  | .dict _ => .normalized
  | .other => .unsupported

/-- Errors: Python exceptions distinguished by their origin. -/
inductive Err where
  | exception (msg : String)        -- `raise Exception(msg)`
  | corruptArchive (path : String)  -- `patoolib.test_archive` failure
  | extractionFailed (path : String) -- `patoolib.extract_archive` failure
  | typeError                       -- e.g. iterating / `.update` on `None`
  | unboundLocal                    -- `reader` referenced before assignment
  | outOfFuel                       -- model artifact: recursion fuel exhausted
deriving DecidableEq, Repr

/-- A recognition result: Python returns a list of lines, or `None` when an
output path was supplied. -/
abbrev Val := Option (List String)

/-- The in-memory result dictionary `results`: insertion-ordered association
list with unique keys, mirroring a Python `dict`. -/
abbrev ResultSet := List (String × Val)

/-- `results[k] = v`: overwrite in place if the key exists (keeping its
position), otherwise append — Python dict assignment. -/
def dinsert (m : ResultSet) (k : String) (v : Val) : ResultSet :=
  if (m.map Prod.fst).contains k then
    m.map (fun kv => if kv.1 = k then (k, v) else kv)
  else m ++ [(k, v)]

/-- `into.update(from)`: repeated dict assignment, later writes overwrite. -/
def dupdate (into from' : ResultSet) : ResultSet :=
  from'.foldl (fun acc kv => dinsert acc kv.1 kv.2) into

/-- Dictionary lookup (first matching key; keys are unique in a dict). -/
def dlookup (m : ResultSet) (k : String) : Option Val :=
  match m.find? (fun kv => kv.1 == k) with
  | some kv => some kv.2
  | none => none

/-- Observable world state: the temporary workspace directories currently on
disk, and the `(sourceIdentifier, line)` rows appended to the output sink. -/
structure St where
  tempDirs : List String
  rows : List (String × String)
deriving DecidableEq, Repr

/-- `mkdir -p d`: the directory exists afterwards (no duplicates). -/
def addDir (l : List String) (d : String) : List String :=
  if d ∈ l then l else d :: l

/-- `rm -rf d`: the directory no longer exists afterwards. -/
def removeDir (l : List String) (d : String) : List String :=
  l.filter (fun x => x ≠ d)

/-- `write_to_file` from api.py: appends one CSV row `(imagePath, line)` per
line of `script`.  Iterating over a `None` script raises a `TypeError`. -/
def write_to_file (imagePath : String) (script : Val) (st : St) :
    Except Err Unit × St :=
  match script with
  | none => (.error .typeError, st)
  | some lines =>
    (.ok (), ⟨st.tempDirs, st.rows ++ lines.map (fun l => (imagePath, l))⟩)

/-- `read_from_file` from api.py.  `script` is what the recognizer returns
for this image (the external `Reader.read` collaborator).  The unsupported
extension check precedes the config dispatch; with a truthy `outputPath` the
script is written to the sink and `None` is returned. -/
def read_from_file (imagePath : String) (script : List String)
    (out : Option String) (cfg : ConfigValue) (st : St) :
    Except Err (Option (List String)) × St :=
  if extOf imagePath ∈ IMAGE_EXTENSIONS then
    match configDispatch cfg with
    | .unsupported => (.error (.exception "Unsupported config type"), st)
    | .unboundReader => (.error .unboundLocal, st)
    | _ =>
      match out with
      | some _ =>
        match write_to_file imagePath (some script) st with
        | (.error e, st') => (.error e, st')
        | (.ok _, st') => (.ok none, st')
      | none => (.ok (some script), st)
  else
    (.error (.exception ("Unsupported image file format: " ++ extOf imagePath)),
      st)

mutual
/-- A filesystem / archive-content node.  A `file` carries the data the
external collaborators would produce for it: the recognizer's lines
(`script`), the archive tool's integrity verdict (`intact`), extraction
verdict (`extractOk`) and extracted contents (`contents`).  Which of these
are consulted is decided—exactly as in the code—by the file name's
extension alone. -/
inductive Node where
  | file (name : String) (script : List String) (intact : Bool)
      (extractOk : Bool) (contents : Forest)
  | dir (name : String) (children : Forest)

/-- A list of filesystem nodes (the entries of one directory, or the
contents of one archive), as a mutual inductive so that all recursion over
it is structural. -/
inductive Forest where
  | nil
  | cons (n : Node) (rest : Forest)
end

deriving instance DecidableEq for Node, Forest

/-- One `(subDir, file)` pair produced by the `os.walk` loop, together with
the node's collaborator data. -/
structure FileEntry where
  path : String
  name : String
  script : List String
  intact : Bool
  extractOk : Bool
  contents : Forest
deriving DecidableEq

/-- The file entries of one directory level: `imagePath = os.path.join(subDir,
file)`. -/
def filesAt (root : String) : Forest → List FileEntry
  | .nil => []
  | .cons (.file name script intact extractOk contents) rest =>
    ⟨pathJoin root name, name, script, intact, extractOk, contents⟩
      :: filesAt root rest
  | .cons (.dir _ _) rest => filesAt root rest

mutual
/-- File entries contributed by the subdirectories occurring in a forest
(rooted at `root`), in `os.walk` top-down order. -/
def walkGo (root : String) : Forest → List FileEntry
  | .nil => []
  | .cons n rest => walkNode root n ++ walkGo root rest

/-- File entries contributed by one node when it is a subdirectory: its own
files first, then its nested subdirectories. -/
def walkNode (root : String) : Node → List FileEntry
  | .file _ _ _ _ _ => []
  | .dir name children =>
    filesAt (pathJoin root name) children ++ walkGo (pathJoin root name) children
end

/-- All `(subDir, file)` pairs `os.walk(root)` yields, in top-down order:
the files of `root` itself, then those of its subdirectories. -/
def walkList (root : String) (ns : Forest) : List FileEntry :=
  filesAt root ns ++ walkGo root ns

/-- Convenience constructor for forests. -/
def Forest.ofList : List Node → Forest
  | [] => .nil
  | n :: rest => .cons n (Forest.ofList rest)

/-- A well-formed file or directory name: nonempty and free of path
separators, as any name produced by a real `os.walk` or archive listing
is. -/
def goodNameB (s : String) : Bool :=
  !s.data.isEmpty && s.data.all (fun c => ¬(c = '/' ∨ c = '\\'))

/-- A root path usable on the left of `os.path.join`: nonempty and not
ending in a slash. -/
def goodRootB (r : String) : Bool :=
  match r.data.getLast? with
  | some c => c ≠ '/'
  | none => false

/-- A string free of path separators. -/
def sepFreeB (s : String) : Bool :=
  s.data.all (fun c => ¬(c = '/' ∨ c = '\\'))

/-- `p` is a literal prefix of `s`. -/
def strPrefix (p s : String) : Prop :=
  p.data <+: s.data

instance (p s : String) : Decidable (strPrefix p s) :=
  inferInstanceAs (Decidable (p.data <+: s.data))

/-- The keys of a result dictionary. -/
def dkeys (m : ResultSet) : List String := m.map Prod.fst

mutual
/-- Well-formedness of a node: its name is a real file/directory name and
its nested contents are well-formed. -/
def nodeWF : Node → Bool
  | .file name _ _ _ contents => goodNameB name && forestWF contents
  | .dir name children => goodNameB name && forestWF children

/-- Well-formedness of a forest. -/
def forestWF : Forest → Bool
  | .nil => true
  | .cons n rest => nodeWF n && forestWF rest
end

/-- The rows the remap-and-write loop of `read_from_archive_file` appends
for a result dictionary (one row per line, under the rewritten key). -/
def remapRows (path : String) (rs : ResultSet) : List (String × String) :=
  rs.flatMap fun kv =>
    match kv.2 with
    | some lines => lines.map (fun l => (path ++ "/" ++ get_file_name kv.1, l))
    | none => []

/-- What holds of every `os.walk` file entry below a good root in a
well-formed forest: its path extends `root ++ "/"`, the `tmp` workspace
that would be created next to it also lies below `root ++ "/"`, and its
nested contents are well-formed. -/
def GoodEntry (root : String) (e : FileEntry) : Prop :=
  strPrefix (root ++ "/") e.path ∧
  strPrefix (root ++ "/") (pathJoin (dirname e.path) "tmp" ++ "/") ∧
  forestWF e.contents = true

/-- The flush loop at the end of `read_from_directory` (api.py lines
162–164): write every accumulated result to the sink. -/
def flushResults : ResultSet → St → Except Err Unit × St
  | [], st => (.ok (), st)
  | (k, v) :: rest, st =>
    match write_to_file k v st with
    | (.error e, st') => (.error e, st')
    | (.ok _, st') => flushResults rest st'

/-- The remap-and-write loop of `read_from_archive_file` (api.py lines
113–116): each temp key is rewritten to `path + '/' + _get_file_name(key)`
before being written. -/
def flushRemap (path : String) : ResultSet → St → Except Err Unit × St
  | [], st => (.ok (), st)
  | (k, v) :: rest, st =>
    match write_to_file (path ++ "/" ++ get_file_name k) v st with
    | (.error e, st') => (.error e, st')
    | (.ok _, st') => flushRemap path rest st'

/-- The type of (a fuel instantiation of) `read_from_archive_file`. -/
abbrev ArchFn := String → Bool → Bool → Forest → Option String →
  ConfigValue → St → Except Err (Option ResultSet) × St

/-- The `for subDir, dirs, files in os.walk(...)` body of
`read_from_directory` (api.py lines 152–161), parameterized by the
archive-processing function: images are read and stored under their path,
archives are processed and merged with `results.update(...)` (a `TypeError`
when the archive call returned `None`), anything else is skipped. -/
def procEntriesWith (rfafF : ArchFn) :
    List FileEntry → Option String → ConfigValue → ResultSet → St →
    Except Err ResultSet × St
  | [], _, _, acc, st => (.ok acc, st)
  | e :: rest, out, cfg, acc, st =>
    if extOf e.name ∈ IMAGE_EXTENSIONS then
      match read_from_file e.path e.script out cfg st with
      | (.error err, st') => (.error err, st')
      | (.ok script?, st') =>
        procEntriesWith rfafF rest out cfg (dinsert acc e.path script?) st'
    else if extOf e.name ∈ ARCHIVE_EXTENSIONS then
      match rfafF e.path e.intact e.extractOk e.contents out cfg st with
      | (.error err, st') => (.error err, st')
      | (.ok none, st') => (.error .typeError, st')
      | (.ok (some r), st') =>
        procEntriesWith rfafF rest out cfg (dupdate acc r) st'
    else procEntriesWith rfafF rest out cfg acc st

/-- The body of `read_from_directory`, parameterized by the
archive-processing function: walk, process every entry, then—with a truthy
`outputPath`—flush the accumulated results and return `None`, otherwise
return the result dictionary. -/
def dirBody (rfafF : ArchFn) (root : String) (ns : Forest)
    (out : Option String) (cfg : ConfigValue) (st : St) :
    Except Err (Option ResultSet) × St :=
  match procEntriesWith rfafF (walkList root ns) out cfg [] st with
  | (.error e, st') => (.error e, st')
  | (.ok results, st') =>
    match out with
    | some _ =>
      match flushResults results st' with
      | (.error e, st'') => (.error e, st'')
      | (.ok _, st'') => (.ok none, st'')
    | none => (.ok (some results), st')

/-- The body of `read_from_archive_file` (api.py lines 98–118),
parameterized by the archive function used for archives nested inside this
one: extension check, integrity test, `mkdir -p` of the `tmp` workspace
beside the archive, extraction, recursive directory read (always without an
output path), `rm -rf` of the workspace, and finally either the
remap-and-write loop (truthy `outputPath`, returning `None`) or the raw
result dictionary.  Note the `rm -rf` line is executed only when extraction
and the recursive read return normally. -/
def archiveBody (rfafF : ArchFn) (path : String) (intact extractOk : Bool)
    (contents : Forest) (out : Option String) (cfg : ConfigValue)
    (st : St) : Except Err (Option ResultSet) × St :=
  let ext := extOf path
  if ext ∈ ARCHIVE_EXTENSIONS then
    if intact then
      let tempDir := pathJoin (dirname path) "tmp"
      let st1 : St := ⟨addDir st.tempDirs tempDir, st.rows⟩
      if extractOk then
        match dirBody rfafF tempDir contents none cfg st1 with
        | (.error e, st2) => (.error e, st2)
        | (.ok results?, st2) =>
          let st3 : St := ⟨removeDir st2.tempDirs tempDir, st2.rows⟩
          match out with
          | none => (.ok results?, st3)
          | some _ =>
            match results? with
            | none => (.error .typeError, st3)
            | some results =>
              match flushRemap path results st3 with
              | (.error e, st4) => (.error e, st4)
              | (.ok _, st4) => (.ok none, st4)
      else (.error (.extractionFailed path), st1)
    else (.error (.corruptArchive path), st)
  else (.error (.exception ("Unsupported archive file format: " ++ ext)), st)

/-- Fuel-indexed `read_from_archive_file`: each nesting level of archive
processing consumes one unit of fuel. -/
def rfafN : Nat → ArchFn
  | 0 => fun _ _ _ _ _ _ st => (.error .outOfFuel, st)
  | Nat.succ f => archiveBody (rfafN f)

/-- `read_from_archive_file` from api.py (fuel bounds archive nesting
depth). -/
def read_from_archive_file (fuel : Nat) : ArchFn := rfafN fuel

/-- `read_from_directory` from api.py (fuel bounds archive nesting depth;
the directory walk itself needs no fuel). -/
def read_from_directory (fuel : Nat) (root : String) (ns : Forest)
    (out : Option String) (cfg : ConfigValue) (st : St) :
    Except Err (Option ResultSet) × St :=
  dirBody (rfafN fuel) root ns out cfg st

/-! ### Invariant shapes, parameterized over the archive-processing
function that `procEntriesWith` / `dirBody` / `archiveBody` receive -/

/-- Rows are untouched by any call made without an output path (no matter
whether it succeeds or raises). -/
def RowsNone (F : ArchFn) : Prop :=
  ∀ p i e c cfg st, ((F p i e c none cfg st).2).rows = st.rows

/-- A successful call leaves no temp directory beyond those already
present. -/
def TempSub (F : ArchFn) : Prop :=
  ∀ p i e c out cfg st r st',
    F p i e c out cfg st = (.ok r, st') → st'.tempDirs ⊆ st.tempDirs

/-- A successful call implies the integrity test passed. -/
def OkIntact (F : ArchFn) : Prop :=
  ∀ p i e c out cfg st r st',
    F p i e c out cfg st = (.ok r, st') → i = true

/-- With an output path, a successful call returns `None`. -/
def SinkNone (F : ArchFn) : Prop :=
  ∀ p i e c o cfg st r st',
    F p i e c (some o) cfg st = (.ok r, st') → r = none

/-- A successful call's own temp directory is gone from the final state. -/
def OkRemoved (F : ArchFn) : Prop :=
  ∀ p i e c out cfg st r st',
    F p i e c out cfg st = (.ok r, st') →
    pathJoin (dirname p) "tmp" ∉ st'.tempDirs

/-- Without an output path, every returned key lies inside this call's temp
workspace directory. -/
def KeysPref (F : ArchFn) : Prop :=
  ∀ p i e c cfg st r st', forestWF c = true →
    F p i e c none cfg st = (.ok (some r), st') →
    ∀ kv ∈ r, strPrefix (pathJoin (dirname p) "tmp" ++ "/") kv.1

/-! ### Generic list lemmas -/

lemma takeWhile_append_sat {p : Char → Bool} :
    ∀ (l₁ : List Char) (x : Char) (l₂ : List Char),
      (∀ c ∈ l₁, p c = true) → p x = false →
      (l₁ ++ x :: l₂).takeWhile p = l₁
  | [], x, l₂, _, hx => by simp [List.takeWhile_cons, hx]
  | c :: l₁, x, l₂, h, hx => by
    have hc : p c = true := h c (by simp)
    simp only [List.cons_append, List.takeWhile_cons, hc, if_true]
    rw [takeWhile_append_sat l₁ x l₂ (fun d hd => h d (by simp [hd])) hx]

lemma takeWhile_sat {p : Char → Bool} :
    ∀ (l : List Char), (∀ c ∈ l, p c = true) → l.takeWhile p = l
  | [], _ => rfl
  | c :: l, h => by
    have hc : p c = true := h c (by simp)
    simp only [List.takeWhile_cons, hc, if_true]
    rw [takeWhile_sat l (fun d hd => h d (by simp [hd]))]

lemma findIdx?_append_none_go {p : Char → Bool} :
    ∀ (l₁ : List Char) (x : Char) (l₂ : List Char) (i : Nat),
      (∀ c ∈ l₁, p c = false) → p x = true →
      List.findIdx? p (l₁ ++ x :: l₂) i = some (i + l₁.length)
  | [], x, l₂, i, _, hx => by simp [List.findIdx?, hx]
  | c :: l₁, x, l₂, i, h, hx => by
    have hc : p c = false := h c (by simp)
    simp only [List.cons_append, List.findIdx?, hc, Bool.false_eq_true, if_false,
      List.append_eq]
    rw [findIdx?_append_none_go l₁ x l₂ (i + 1) (fun d hd => h d (by simp [hd])) hx]
    simp only [List.length_cons]
    congr 1
    omega

lemma findIdx?_append_none {p : Char → Bool}
    (l₁ : List Char) (x : Char) (l₂ : List Char)
    (h : ∀ c ∈ l₁, p c = false) (hx : p x = true) :
    (l₁ ++ x :: l₂).findIdx? p = some l₁.length := by
  have := findIdx?_append_none_go l₁ x l₂ 0 h hx
  simpa using this

lemma prefix_cancel_left {l a b : List Char} (h : (l ++ a) <+: (l ++ b)) :
    a <+: b := by
  obtain ⟨t, ht⟩ := h
  rw [List.append_assoc] at ht
  exact ⟨t, List.append_cancel_left ht⟩

lemma slashFree_prefix_eq :
    ∀ (a b : List Char), (∀ c ∈ a, c ≠ '/') → (∀ c ∈ b, c ≠ '/') →
      ∀ u v, (a ++ '/' :: u) <+: (b ++ '/' :: v) → a = b
  | [], [], _, _, _, _, _ => rfl
  | [], x :: b, _, hb, u, v, h => by
    rw [List.nil_append] at h
    rw [List.cons_append, List.cons_prefix_cons] at h
    exact absurd h.1.symm (hb x (by simp))
  | c :: a, [], ha, _, u, v, h => by
    rw [List.nil_append, List.cons_append, List.cons_prefix_cons] at h
    exact absurd h.1 (ha c (by simp))
  | c :: a, x :: b, ha, hb, u, v, h => by
    rw [List.cons_append, List.cons_append, List.cons_prefix_cons] at h
    have := slashFree_prefix_eq a b (fun d hd => ha d (by simp [hd]))
      (fun d hd => hb d (by simp [hd])) u v h.2
    rw [h.1, this]

/-! ### Path algebra -/

lemma data_append_slash (a b : String) :
    (a ++ "/" ++ b).data = a.data ++ '/' :: b.data := by
  simp [String.data_append]

lemma afterLastSlash_append (d : List Char) (b : List Char)
    (hb : ∀ c ∈ b, c ≠ '/') : afterLastSlash (d ++ '/' :: b) = b := by
  unfold afterLastSlash
  rw [List.reverse_append, List.reverse_cons, List.append_assoc,
    List.singleton_append]
  rw [takeWhile_append_sat b.reverse '/' (d.reverse)
    (fun c hc => by simpa using hb c (List.mem_reverse.mp hc)) (by simp)]
  exact List.reverse_reverse b

lemma afterLastSlash_self (b : List Char) (hb : ∀ c ∈ b, c ≠ '/') :
    afterLastSlash b = b := by
  unfold afterLastSlash
  rw [takeWhile_sat b.reverse
    (fun c hc => by simpa using hb c (List.mem_reverse.mp hc))]
  exact List.reverse_reverse b

lemma extOf_append (a b : String) (hb : ∀ c ∈ b.data, c ≠ '/') :
    extOf (a ++ "/" ++ b) = extOf b := by
  unfold extOf
  rw [data_append_slash, afterLastSlash_append a.data b.data hb,
    afterLastSlash_self b.data hb]

lemma goodRootB_ne_empty {a : String} (ha : goodRootB a = true) : a ≠ "" := by
  intro h
  rw [h] at ha
  simp [goodRootB] at ha

lemma goodRootB_getLast {a : String} (ha : goodRootB a = true) :
    ∃ c, a.data.getLast? = some c ∧ c ≠ '/' := by
  unfold goodRootB at ha
  rcases h : a.data.getLast? with _ | c
  · rw [h] at ha; exact absurd ha (by simp)
  · rw [h] at ha
    exact ⟨c, rfl, by simpa using ha⟩

lemma goodRootB_not_endsSlash {a : String} (ha : goodRootB a = true) :
    pyEndsSlash a = false := by
  obtain ⟨c, hc, hcne⟩ := goodRootB_getLast ha
  unfold pyEndsSlash
  rw [hc]
  simpa using hcne

lemma pathJoin_eq (a b : String) (ha : goodRootB a = true)
    (hb : ∀ c ∈ b.data, c ≠ '/') : pathJoin a b = a ++ "/" ++ b := by
  have hne := goodRootB_ne_empty ha
  have hslash := goodRootB_not_endsSlash ha
  have hhead : b.data.head? ≠ some '/' := by
    rcases hbd : b.data with _ | ⟨c, cs⟩
    · simp
    · have : c ≠ '/' := hb c (by simp [hbd])
      simpa using this
  simp [pathJoin, hhead, hne, hslash]

lemma dirnameStrip_append_slash (d : String) (hd : goodRootB d = true) :
    dirnameStrip (d.data ++ ['/']) = d := by
  obtain ⟨c₀, hlast, hc₀⟩ := goodRootB_getLast hd
  have hmem : c₀ ∈ d.data ++ ['/'] :=
    List.mem_append_left _ (List.mem_of_getLast?_eq_some hlast)
  have hall : ((d.data ++ ['/']).all fun c => decide (c = '/')) = false := by
    rcases h : (d.data ++ ['/']).all fun c => decide (c = '/') with _ | _
    · rfl
    · rw [List.all_eq_true] at h
      exact absurd (of_decide_eq_true (h c₀ hmem)) hc₀
  unfold dirnameStrip
  simp only [hall, Bool.false_eq_true, if_false]
  have hrev2 : (d.data ++ ['/']).reverse = '/' :: d.data.reverse := by
    rw [List.reverse_append]
    rfl
  rw [hrev2, List.dropWhile_cons]
  simp only [decide_True, if_true]
  obtain ⟨t, ht⟩ : ∃ t, d.data.reverse = c₀ :: t := by
    have hh : d.data.reverse.head? = some c₀ := by
      rw [List.head?_reverse]; exact hlast
    rcases h : d.data.reverse with _ | ⟨x, t⟩
    · rw [h] at hh; exact absurd hh (by simp)
    · rw [h] at hh; simp at hh; exact ⟨t, by rw [hh]⟩
  rw [ht, List.dropWhile_cons]
  have hd0 : (decide (c₀ = '/')) = false := by simpa using hc₀
  simp only [hd0, Bool.false_eq_true, if_false]
  rw [← ht, List.reverse_reverse]

lemma dirname_append (d b : String) (hd : goodRootB d = true)
    (hb : ∀ c ∈ b.data, c ≠ '/') : dirname (d ++ "/" ++ b) = d := by
  unfold dirname
  rw [data_append_slash]
  have hrev : (d.data ++ '/' :: b.data).reverse
      = b.data.reverse ++ '/' :: d.data.reverse := by
    rw [List.reverse_append, List.reverse_cons, List.append_assoc,
      List.singleton_append]
  rw [hrev]
  rw [findIdx?_append_none b.data.reverse '/' d.data.reverse
    (fun c hc => by simpa using hb c (List.mem_reverse.mp hc)) (by simp)]
  simp only [List.length_reverse, List.length_append, List.length_cons]
  have hi : d.data.length + (b.data.length + 1) - b.data.length
      = d.data.length + 1 := by omega
  rw [hi]
  have hsplit : d.data ++ '/' :: b.data = (d.data ++ ['/']) ++ b.data := by simp
  rw [hsplit, List.take_left' (by simp)]
  exact dirnameStrip_append_slash d hd

lemma goodRootB_of_getLast {s : String} {c : Char}
    (h : s.data.getLast? = some c) (hc : c ≠ '/') : goodRootB s = true := by
  unfold goodRootB
  rw [h]
  simpa using hc

lemma goodNameB_ne_empty' {b : String} (hb : goodNameB b = true) :
    b.data ≠ [] := by
  unfold goodNameB at hb
  rw [Bool.and_eq_true] at hb
  have := hb.1
  simpa [List.isEmpty_iff] using this

lemma goodNameB_ne_empty {b : String} (hb : goodNameB b = true) : b ≠ "" := by
  intro h
  rw [h] at hb
  simp [goodNameB] at hb

lemma goodNameB_no_slash {b : String} (hb : goodNameB b = true) :
    ∀ c ∈ b.data, c ≠ '/' := by
  intro c hc
  unfold goodNameB at hb
  rw [Bool.and_eq_true, List.all_eq_true] at hb
  have := hb.2 c hc
  simp at this
  exact this.1

lemma goodNameB_no_sep {b : String} (hb : goodNameB b = true) :
    ∀ c ∈ b.data, ¬(c = '/' ∨ c = '\\') := by
  intro c hc
  unfold goodNameB at hb
  rw [Bool.and_eq_true, List.all_eq_true] at hb
  have := hb.2 c hc
  simpa using this

lemma goodNameB_getLast {b : String} (hb : goodNameB b = true) :
    ∃ c, b.data.getLast? = some c ∧ c ≠ '/' := by
  have hne := goodNameB_ne_empty' hb
  rcases h : b.data.getLast? with _ | c
  · rw [List.getLast?_eq_none_iff] at h
    exact absurd h hne
  · exact ⟨c, rfl, goodNameB_no_slash hb c (List.mem_of_getLast?_eq_some h)⟩

lemma goodRootB_append (a b : String) (hb : goodNameB b = true) :
    goodRootB (a ++ "/" ++ b) = true := by
  obtain ⟨c, hc, hcne⟩ := goodNameB_getLast hb
  apply goodRootB_of_getLast (c := c) _ hcne
  rw [data_append_slash]
  have hsplit : a.data ++ '/' :: b.data = (a.data ++ ['/']) ++ b.data := by simp
  rw [hsplit, List.getLast?_append_of_ne_nil _ (goodNameB_ne_empty' hb)]
  exact hc

lemma goodRootB_join_tmp (d : String) : goodRootB (pathJoin d "tmp") = true := by
  unfold pathJoin
  have h1 : ¬(("tmp" : String).data.head? = some '/') := by decide
  rw [if_neg h1]
  split
  · rename_i hd
    subst hd
    decide
  · split
    · apply goodRootB_of_getLast (c := 'p') _ (by decide)
      rw [String.data_append]
      rw [List.getLast?_append_of_ne_nil _ (by decide : ("tmp" : String).data ≠ [])]
      decide
    · apply goodRootB_of_getLast (c := 'p') _ (by decide)
      rw [data_append_slash]
      have hsplit : d.data ++ '/' :: ("tmp" : String).data
          = (d.data ++ ['/']) ++ ("tmp" : String).data := by simp
      rw [hsplit, List.getLast?_append_of_ne_nil _ (by decide)]
      decide

/-! ### `get_file_name` output is separator-free -/

lemma afterLastSep_all (cs : List Char) :
    ∀ c ∈ afterLastSep cs, ¬(c = '/' ∨ c = '\\') := by
  intro c hc
  unfold afterLastSep at hc
  rw [List.mem_reverse] at hc
  have := List.mem_takeWhile_imp hc
  simpa using this

lemma sepFreeB_get_file_name (p : String) : sepFreeB (get_file_name p) = true := by
  unfold get_file_name
  split
  · unfold sepFreeB
    rw [List.all_eq_true]
    intro c hc
    simpa using afterLastSep_all _ c hc
  · unfold sepFreeB
    rw [List.all_eq_true]
    intro c hc
    simpa using afterLastSep_all _ c hc

/-! ### String prefix helpers -/

lemma strPrefix_append_right (a b : String) : strPrefix a (a ++ b) := by
  unfold strPrefix
  rw [String.data_append]
  exact List.prefix_append _ _

lemma strPrefix_trans {a b c : String} (h1 : strPrefix a b)
    (h2 : strPrefix b c) : strPrefix a c :=
  List.IsPrefix.trans h1 h2

lemma strPrefix_extend (r n : String) : strPrefix (r ++ "/") (r ++ "/" ++ n) := by
  unfold strPrefix
  rw [String.data_append]
  exact List.prefix_append _ _

lemma append_slash_assoc (r n : String) :
    r ++ "/" ++ n ++ "/" = (r ++ "/") ++ (n ++ "/") := by
  apply String.ext
  simp [String.data_append]

/-! ### Well-formedness projections -/

lemma nodeWF_file {name : String} {script : List String} {intact extractOk : Bool}
    {contents : Forest}
    (h : nodeWF (.file name script intact extractOk contents) = true) :
    goodNameB name = true ∧ forestWF contents = true := by
  unfold nodeWF at h
  rwa [Bool.and_eq_true] at h

lemma nodeWF_dir {name : String} {children : Forest}
    (h : nodeWF (.dir name children) = true) :
    goodNameB name = true ∧ forestWF children = true := by
  unfold nodeWF at h
  rwa [Bool.and_eq_true] at h

lemma forestWF_cons {n : Node} {rest : Forest}
    (h : forestWF (.cons n rest) = true) :
    nodeWF n = true ∧ forestWF rest = true := by
  unfold forestWF at h
  rwa [Bool.and_eq_true] at h

/-! ### Every walk entry below a good root is good -/

lemma goodEntry_self (root name : String) (e : FileEntry)
    (hr : goodRootB root = true) (hn : goodNameB name = true)
    (hpath : e.path = pathJoin root name) (hwf : forestWF e.contents = true) :
    GoodEntry root e := by
  have hj : pathJoin root name = root ++ "/" ++ name :=
    pathJoin_eq root name hr (goodNameB_no_slash hn)
  refine ⟨?_, ?_, hwf⟩
  · rw [hpath, hj]
    exact strPrefix_extend root name
  · rw [hpath, hj, dirname_append root name hr (goodNameB_no_slash hn),
      pathJoin_eq root "tmp" hr (by decide), append_slash_assoc]
    exact strPrefix_append_right _ _

theorem filesAt_good : ∀ (root : String) (ns : Forest),
    goodRootB root = true → forestWF ns = true →
    ∀ e ∈ filesAt root ns, GoodEntry root e
  | root, .nil, _, _ => by simp [filesAt]
  | root, .cons (.file name s i ex c) rest, hr, hwf => by
    have hp := forestWF_cons hwf
    intro e he
    rw [filesAt] at he
    rcases List.mem_cons.mp he with rfl | hmem
    · exact goodEntry_self root name _ hr (nodeWF_file hp.1).1 rfl
        (nodeWF_file hp.1).2
    · exact filesAt_good root rest hr hp.2 e hmem
  | root, .cons (.dir name ch) rest, hr, hwf => by
    intro e he
    rw [filesAt] at he
    exact filesAt_good root rest hr (forestWF_cons hwf).2 e he

lemma GoodEntry_lift {root name : String} {e : FileEntry}
    (hr : goodRootB root = true) (hn : goodNameB name = true)
    (h : GoodEntry (pathJoin root name) e) : GoodEntry root e := by
  rw [pathJoin_eq root name hr (goodNameB_no_slash hn)] at h
  obtain ⟨h1, h2, h3⟩ := h
  have hpre : strPrefix (root ++ "/") (root ++ "/" ++ name ++ "/") := by
    rw [append_slash_assoc]
    exact strPrefix_append_right _ _
  exact ⟨strPrefix_trans hpre h1, strPrefix_trans hpre h2, h3⟩

mutual
theorem walkGo_good : ∀ (root : String) (ns : Forest),
    goodRootB root = true → forestWF ns = true →
    ∀ e ∈ walkGo root ns, GoodEntry root e
  | root, .nil, _, _ => by simp [walkGo]
  | root, .cons n rest, hr, hwf => by
    intro e he
    rw [walkGo] at he
    rcases List.mem_append.mp he with h | h
    · exact walkNode_good root n hr (forestWF_cons hwf).1 e h
    · exact walkGo_good root rest hr (forestWF_cons hwf).2 e h

theorem walkNode_good : ∀ (root : String) (n : Node),
    goodRootB root = true → nodeWF n = true →
    ∀ e ∈ walkNode root n, GoodEntry root e
  | root, .file name s i ex c, _, _ => by simp [walkNode]
  | root, .dir name children, hr, hn => by
    intro e he
    rw [walkNode] at he
    have hgn : goodNameB name = true := (nodeWF_dir hn).1
    have hwfc : forestWF children = true := (nodeWF_dir hn).2
    have hroot' : goodRootB (pathJoin root name) = true := by
      rw [pathJoin_eq root name hr (goodNameB_no_slash hgn)]
      exact goodRootB_append root name hgn
    rcases List.mem_append.mp he with h | h
    · exact GoodEntry_lift hr hgn
        (filesAt_good (pathJoin root name) children hroot' hwfc e h)
    · exact GoodEntry_lift hr hgn
        (walkGo_good (pathJoin root name) children hroot' hwfc e h)
end

theorem walkList_good (root : String) (ns : Forest)
    (hr : goodRootB root = true) (hwf : forestWF ns = true) :
    ∀ e ∈ walkList root ns, GoodEntry root e := by
  intro e he
  rw [walkList] at he
  rcases List.mem_append.mp he with h | h
  · exact filesAt_good root ns hr hwf e h
  · exact walkGo_good root ns hr hwf e h

/-! ### Dictionary lemmas -/

lemma dkeys_cons (k : String) (v : Val) (m : ResultSet) :
    dkeys ((k, v) :: m) = k :: dkeys m := rfl

lemma dkeys_dinsert (m : ResultSet) (k : String) (v : Val) :
    dkeys (dinsert m k v)
      = if k ∈ dkeys m then dkeys m else dkeys m ++ [k] := by
  unfold dinsert
  by_cases h : k ∈ dkeys m
  · rw [if_pos (by simpa [dkeys] using h), if_pos h]
    unfold dkeys
    rw [List.map_map]
    apply List.map_congr_left
    intro kv _
    by_cases hk : kv.1 = k
    · simp [hk]
    · simp [hk]
  · rw [if_neg (by simpa [dkeys] using h), if_neg h]
    unfold dkeys
    simp

lemma dkeys_dinsert_self (m : ResultSet) (k : String) (v : Val) :
    k ∈ dkeys (dinsert m k v) := by
  rw [dkeys_dinsert]
  split
  · assumption
  · simp

lemma dkeys_dinsert_mono {m : ResultSet} {k' : String} (k : String) (v : Val)
    (h : k' ∈ dkeys m) : k' ∈ dkeys (dinsert m k v) := by
  rw [dkeys_dinsert]
  split
  · exact h
  · exact List.mem_append_left _ h

lemma mem_dinsert {m : ResultSet} {k : String} {v : Val} {kv : String × Val}
    (h : kv ∈ dinsert m k v) : kv ∈ m ∨ kv = (k, v) := by
  unfold dinsert at h
  split at h
  · rw [List.mem_map] at h
    obtain ⟨kv', hmem, heq⟩ := h
    by_cases hk : kv'.1 = k
    · rw [if_pos hk] at heq
      exact Or.inr heq.symm
    · rw [if_neg hk] at heq
      exact Or.inl (heq ▸ hmem)
  · rcases List.mem_append.mp h with h | h
    · exact Or.inl h
    · exact Or.inr (by simpa using h)

lemma dupdate_cons (m : ResultSet) (k : String) (v : Val) (r : ResultSet) :
    dupdate m ((k, v) :: r) = dupdate (dinsert m k v) r := rfl

lemma mem_dupdate : ∀ (r m : ResultSet) {kv : String × Val},
    kv ∈ dupdate m r → kv ∈ m ∨ kv ∈ r
  | [], m, kv, h => Or.inl h
  | (k₁, v₁) :: r, m, kv, h => by
    rw [dupdate_cons] at h
    rcases mem_dupdate r (dinsert m k₁ v₁) h with h' | h'
    · rcases mem_dinsert h' with h'' | h''
      · exact Or.inl h''
      · exact Or.inr (by simp [h''])
    · exact Or.inr (List.mem_cons_of_mem _ h')

lemma dkeys_dupdate_mono : ∀ (r m : ResultSet) {k : String},
    k ∈ dkeys m → k ∈ dkeys (dupdate m r)
  | [], _, _, h => h
  | (k₁, v₁) :: r, m, k, h => by
    rw [dupdate_cons]
    exact dkeys_dupdate_mono r _ (dkeys_dinsert_mono k₁ v₁ h)

lemma dinsert_not_mem {m : ResultSet} {k : String} (v : Val)
    (h : k ∉ dkeys m) : dinsert m k v = m ++ [(k, v)] := by
  unfold dinsert
  rw [if_neg (by simpa [dkeys] using h)]

lemma dlookup_cons (k₁ : String) (v₁ : Val) (m : ResultSet) (k : String) :
    dlookup ((k₁, v₁) :: m) k = if k₁ = k then some v₁ else dlookup m k := by
  unfold dlookup
  rw [List.find?_cons]
  by_cases h : k₁ = k
  · subst h
    simp
  · have hb : (k₁ == k) = false := by simpa using h
    simp [hb, h]

lemma dlookup_eq_none {m : ResultSet} {k : String} (h : k ∉ dkeys m) :
    dlookup m k = none := by
  induction m with
  | nil => rfl
  | cons kv m ih =>
    obtain ⟨k₁, v₁⟩ := kv
    rw [dlookup_cons]
    rw [dkeys_cons, List.mem_cons] at h
    push_neg at h
    rw [if_neg (fun he => h.1 he.symm)]
    exact ih h.2

lemma find?_map_replace (k : String) (v : Val) :
    ∀ (m : ResultSet), k ∈ dkeys m →
      (m.map fun kv => if kv.1 = k then (k, v) else kv).find?
          (fun kv => kv.1 == k) = some (k, v)
  | [], h => absurd h (by simp [dkeys])
  | (k₁, v₁) :: m, h => by
    by_cases hk : k₁ = k
    · simp [List.find?_cons, hk]
    · have hkm : k ∈ dkeys m := by
        rw [dkeys_cons, List.mem_cons] at h
        rcases h with h | h
        · exact absurd h.symm hk
        · exact h
      have hb : (k₁ == k) = false := by simpa using hk
      simp only [List.map_cons, if_neg hk, List.find?_cons, hb]
      exact find?_map_replace k v m hkm

lemma dlookup_append_single (m : ResultSet) (k : String) (v : Val)
    (h : k ∉ dkeys m) : dlookup (m ++ [(k, v)]) k = some v := by
  induction m with
  | nil => simp [dlookup_cons]
  | cons kv m ih =>
    obtain ⟨k₁, v₁⟩ := kv
    rw [dkeys_cons, List.mem_cons] at h
    push_neg at h
    rw [List.cons_append, dlookup_cons, if_neg (fun he => h.1 he.symm)]
    exact ih h.2

lemma dlookup_dinsert_self (m : ResultSet) (k : String) (v : Val) :
    dlookup (dinsert m k v) k = some v := by
  unfold dinsert
  by_cases h : k ∈ dkeys m
  · rw [if_pos (by simpa [dkeys] using h)]
    unfold dlookup
    rw [find?_map_replace k v m h]
  · rw [if_neg (by simpa [dkeys] using h)]
    exact dlookup_append_single m k v h

lemma dlookup_map_replace (k : String) (v : Val) (k' : String) (h : k' ≠ k) :
    ∀ (m : ResultSet),
      dlookup (m.map fun kv => if kv.1 = k then (k, v) else kv) k'
        = dlookup m k'
  | [] => rfl
  | (k₁, v₁) :: m => by
    rw [List.map_cons]
    by_cases hk : k₁ = k
    · have hrepl : (if ((k₁, v₁) : String × Val).1 = k then (k, v) else (k₁, v₁))
          = (k, v) := if_pos hk
      rw [hrepl, dlookup_cons, dlookup_cons, if_neg (fun he => h he.symm),
        if_neg (fun he => h (by rw [← he]; exact hk))]
      exact dlookup_map_replace k v k' h m
    · have hrepl : (if ((k₁, v₁) : String × Val).1 = k then (k, v) else (k₁, v₁))
          = (k₁, v₁) := if_neg hk
      rw [hrepl, dlookup_cons, dlookup_cons]
      by_cases hk' : k₁ = k'
      · rw [if_pos hk', if_pos hk']
      · rw [if_neg hk', if_neg hk']
        exact dlookup_map_replace k v k' h m

lemma dlookup_append_single_other (k : String) (v : Val) (k' : String)
    (h : k' ≠ k) :
    ∀ (m : ResultSet), dlookup (m ++ [(k, v)]) k' = dlookup m k'
  | [] => by
    rw [List.nil_append, dlookup_cons, if_neg (fun he => h he.symm)]
  | (k₁, v₁) :: m => by
    rw [List.cons_append, dlookup_cons, dlookup_cons]
    by_cases hk' : k₁ = k'
    · rw [if_pos hk', if_pos hk']
    · rw [if_neg hk', if_neg hk']
      exact dlookup_append_single_other k v k' h m

lemma dlookup_dinsert_other (m : ResultSet) (k : String) (v : Val)
    (k' : String) (h : k' ≠ k) :
    dlookup (dinsert m k v) k' = dlookup m k' := by
  unfold dinsert
  split
  · exact dlookup_map_replace k v k' h m
  · exact dlookup_append_single_other k v k' h m

lemma dlookup_dupdate_absent : ∀ (r m : ResultSet) {k : String},
    k ∉ dkeys r → dlookup (dupdate m r) k = dlookup m k
  | [], _, _, _ => rfl
  | (k₁, v₁) :: r, m, k, h => by
    rw [dkeys_cons, List.mem_cons] at h
    push_neg at h
    rw [dupdate_cons, dlookup_dupdate_absent r _ h.2,
      dlookup_dinsert_other m k₁ v₁ k h.1]

lemma dlookup_dupdate_mem : ∀ (r m : ResultSet) {k : String},
    (dkeys r).Nodup → k ∈ dkeys r →
    dlookup (dupdate m r) k = dlookup r k
  | [], _, _, _, h => absurd h (by simp [dkeys])
  | (k₁, v₁) :: r, m, k, hnd, h => by
    rw [dkeys_cons] at hnd h
    have hnd' := List.nodup_cons.mp hnd
    rw [dupdate_cons, dlookup_cons]
    rcases List.mem_cons.mp h with rfl | hmem
    · rw [if_pos rfl, dlookup_dupdate_absent r _ hnd'.1]
      exact dlookup_dinsert_self m k v₁
    · have hne : k₁ ≠ k := fun he => hnd'.1 (he ▸ hmem)
      rw [if_neg hne]
      exact dlookup_dupdate_mem r _ hnd'.2 hmem

lemma dupdate_length_disjoint : ∀ (r m : ResultSet),
    (dkeys r).Nodup → (∀ k ∈ dkeys r, k ∉ dkeys m) →
    (dupdate m r).length = m.length + r.length
  | [], m, _, _ => by simp [dupdate]
  | (k₁, v₁) :: r, m, hnd, hdis => by
    rw [dupdate_cons]
    have h1 : k₁ ∉ dkeys m := hdis k₁ (by simp [dkeys_cons])
    rw [dkeys_cons] at hnd
    have hnd' := List.nodup_cons.mp hnd
    have hkeys : dkeys (dinsert m k₁ v₁) = dkeys m ++ [k₁] := by
      rw [dkeys_dinsert, if_neg h1]
    have hdis' : ∀ k ∈ dkeys r, k ∉ dkeys (dinsert m k₁ v₁) := by
      intro k hk
      rw [hkeys, List.mem_append]
      push_neg
      refine ⟨hdis k (by simp [dkeys_cons, hk]), ?_⟩
      simpa using fun he => hnd'.1 (by rw [← he]; exact hk)
    rw [dupdate_length_disjoint r _ hnd'.2 hdis', dinsert_not_mem v₁ h1]
    simp only [List.length_append, List.length_cons, List.length_nil]
    omega

/-! ### Small state lemmas -/

lemma mem_addDir {l : List String} {d x : String} :
    x ∈ addDir l d ↔ x = d ∨ x ∈ l := by
  unfold addDir
  split
  · rename_i h
    constructor
    · exact Or.inr
    · rintro (rfl | hx)
      · exact h
      · exact hx
  · exact List.mem_cons

lemma mem_removeDir {l : List String} {d x : String} :
    x ∈ removeDir l d ↔ x ∈ l ∧ x ≠ d := by
  unfold removeDir
  rw [List.mem_filter]
  simp

lemma not_mem_removeDir_self (l : List String) (d : String) :
    d ∉ removeDir l d := by
  rw [mem_removeDir]
  simp

lemma write_to_file_tempDirs (p : String) (v : Val) (st : St) :
    ((write_to_file p v st).2).tempDirs = st.tempDirs := by
  cases v <;> rfl

lemma read_from_file_none_state (p : String) (s : List String)
    (cfg : ConfigValue) (st : St) :
    (read_from_file p s none cfg st).2 = st := by
  unfold read_from_file
  split
  · split <;> rfl
  · rfl

lemma read_from_file_tempDirs (p : String) (s : List String)
    (out : Option String) (cfg : ConfigValue) (st : St) :
    ((read_from_file p s out cfg st).2).tempDirs = st.tempDirs := by
  unfold read_from_file
  split
  · split
    · rfl
    · rfl
    · cases out <;> rfl
  · rfl

lemma read_from_file_sink_none {p : String} {s : List String} {o : String}
    {cfg : ConfigValue} {st : St} {sc : Option (List String)} {st' : St}
    (h : read_from_file p s (some o) cfg st = (.ok sc, st')) : sc = none := by
  unfold read_from_file at h
  split at h
  · split at h
    · simp at h
    · simp at h
    · simp [write_to_file] at h
      exact h.1.symm
  · simp at h

lemma flushResults_tempDirs : ∀ (rs : ResultSet) (st : St),
    ((flushResults rs st).2).tempDirs = st.tempDirs
  | [], _ => rfl
  | (k, v) :: rest, st => by
    cases v with
    | none => rfl
    | some lines => exact flushResults_tempDirs rest _

lemma flushRemap_tempDirs (path : String) : ∀ (rs : ResultSet) (st : St),
    ((flushRemap path rs st).2).tempDirs = st.tempDirs
  | [], _ => rfl
  | (k, v) :: rest, st => by
    cases v with
    | none => rfl
    | some lines => exact flushRemap_tempDirs path rest _

lemma flushResults_ok_vals : ∀ (rs : ResultSet) (st : St) {u : Unit} {st' : St},
    flushResults rs st = (.ok u, st') → ∀ kv ∈ rs, kv.2 ≠ none
  | [], _, _, _, _ => by simp
  | (k, v) :: rest, st, u, st', h => by
    cases v with
    | none => simp [flushResults, write_to_file] at h
    | some lines =>
      intro kv hkv
      rcases List.mem_cons.mp hkv with rfl | hmem
      · simp
      · exact flushResults_ok_vals rest _ h kv hmem

lemma flushRemap_ok_rows (path : String) :
    ∀ (rs : ResultSet) (st : St) {u : Unit} {st' : St},
      flushRemap path rs st = (.ok u, st') →
      st'.rows = st.rows ++ remapRows path rs
  | [], st, u, st', h => by
    simp only [flushRemap] at h
    simp at h
    rw [← h]
    simp [remapRows]
  | (k, v) :: rest, st, u, st', h => by
    cases v with
    | none => simp [flushRemap, write_to_file] at h
    | some lines =>
      have h' := flushRemap_ok_rows path rest _ h
      rw [h']
      simp [remapRows, write_to_file, List.append_assoc]

/-! ### Rows are untouched without an output path -/

lemma procEntries_rows_none {F : ArchFn} (hF : RowsNone F) :
    ∀ (entries : List FileEntry) (cfg : ConfigValue) (acc : ResultSet)
      (st : St),
      ((procEntriesWith F entries none cfg acc st).2).rows = st.rows
  | [], _, _, _ => rfl
  | e :: rest, cfg, acc, st => by
    simp only [procEntriesWith]
    split
    · split
      · rename_i err st₂ heq
        have h2 := read_from_file_none_state e.path e.script cfg st
        rw [heq] at h2
        exact congrArg St.rows h2
      · rename_i sc st₂ heq
        have h2 := read_from_file_none_state e.path e.script cfg st
        rw [heq] at h2
        rw [procEntries_rows_none hF rest cfg _ st₂]
        exact congrArg St.rows h2
    · split
      · split
        · rename_i err st₂ heq
          have h2 := hF e.path e.intact e.extractOk e.contents cfg st
          rw [heq] at h2
          exact h2
        · rename_i st₂ heq
          have h2 := hF e.path e.intact e.extractOk e.contents cfg st
          rw [heq] at h2
          exact h2
        · rename_i r₀ st₂ heq
          have h2 := hF e.path e.intact e.extractOk e.contents cfg st
          rw [heq] at h2
          rw [procEntries_rows_none hF rest cfg _ st₂]
          exact h2
      · exact procEntries_rows_none hF rest cfg acc st

lemma dirBody_rows_none {F : ArchFn} (hF : RowsNone F) (root : String)
    (ns : Forest) (cfg : ConfigValue) (st : St) :
    ((dirBody F root ns none cfg st).2).rows = st.rows := by
  unfold dirBody
  split
  · rename_i err st' heq
    have h2 := procEntries_rows_none hF (walkList root ns) cfg [] st
    rw [heq] at h2
    exact h2
  · rename_i res st' heq
    have h2 := procEntries_rows_none hF (walkList root ns) cfg [] st
    rw [heq] at h2
    exact h2

lemma archiveBody_rows_none {F : ArchFn} (hF : RowsNone F) :
    RowsNone (archiveBody F) := by
  intro p i e c cfg st
  simp only [archiveBody]
  split
  · split
    · split
      · split
        · rename_i err st₂ heq
          have h2 := dirBody_rows_none hF (pathJoin (dirname p) "tmp") c cfg
            ⟨addDir st.tempDirs (pathJoin (dirname p) "tmp"), st.rows⟩
          rw [heq] at h2
          exact h2
        · rename_i res st₂ heq
          have h2 := dirBody_rows_none hF (pathJoin (dirname p) "tmp") c cfg
            ⟨addDir st.tempDirs (pathJoin (dirname p) "tmp"), st.rows⟩
          rw [heq] at h2
          exact h2
      · rfl
    · rfl
  · rfl

lemma rfafN_rows_none : ∀ fuel, RowsNone (rfafN fuel)
  | 0 => by
    intro p i e c cfg st
    rfl
  | Nat.succ f => by
    intro p i e c cfg st
    exact archiveBody_rows_none (rfafN_rows_none f) p i e c cfg st

/-! ### Success leaves no extra temp directory -/

lemma procEntries_temp_sub {F : ArchFn} (hF : TempSub F) :
    ∀ (entries : List FileEntry) (out : Option String) (cfg : ConfigValue)
      (acc : ResultSet) (st : St) (r : ResultSet) (st' : St),
      procEntriesWith F entries out cfg acc st = (.ok r, st') →
      st'.tempDirs ⊆ st.tempDirs
  | [], out, cfg, acc, st, r, st', h => by
    simp only [procEntriesWith] at h
    cases h
    exact fun x hx => hx
  | e :: rest, out, cfg, acc, st, r, st', h => by
    simp only [procEntriesWith] at h
    split at h
    · split at h
      · simp at h
      · rename_i sc st₂ heq
        have h2 := read_from_file_tempDirs e.path e.script out cfg st
        rw [heq] at h2
        have h3 := procEntries_temp_sub hF rest out cfg _ st₂ r st' h
        rw [h2] at h3
        exact h3
    · split at h
      · split at h
        · simp at h
        · simp at h
        · rename_i r₀ st₂ heq
          have h4 := hF _ _ _ _ _ _ _ _ _ heq
          exact (procEntries_temp_sub hF rest out cfg _ st₂ r st' h).trans h4
      · exact procEntries_temp_sub hF rest out cfg acc st r st' h

lemma dirBody_temp_sub {F : ArchFn} (hF : TempSub F) (root : String)
    (ns : Forest) (out : Option String) (cfg : ConfigValue) (st : St)
    {r : Option ResultSet} {st' : St}
    (h : dirBody F root ns out cfg st = (.ok r, st')) :
    st'.tempDirs ⊆ st.tempDirs := by
  unfold dirBody at h
  split at h
  · simp at h
  · rename_i res st₂ heq
    have h2 := procEntries_temp_sub hF (walkList root ns) out cfg [] st res st₂
      heq
    split at h
    · split at h
      · simp at h
      · rename_i u st₃ heq3
        cases h
        have h4 := flushResults_tempDirs res st₂
        rw [heq3] at h4
        rw [h4]
        exact h2
    · cases h
      exact h2

lemma archiveBody_temp_sub {F : ArchFn} (hF : TempSub F) :
    TempSub (archiveBody F) := by
  intro p i e c out cfg st r st' h
  simp only [archiveBody] at h
  split at h
  · split at h
    · split at h
      · split at h
        · simp at h
        · rename_i res st₂ heq
          have h2 := dirBody_temp_sub hF _ _ _ _ _ heq
          have hsub :
              removeDir st₂.tempDirs (pathJoin (dirname p) "tmp")
                ⊆ st.tempDirs := by
            intro x hx
            rw [mem_removeDir] at hx
            have hx2 := h2 hx.1
            rcases mem_addDir.mp hx2 with rfl | hmem
            · exact absurd rfl hx.2
            · exact hmem
          split at h
          · cases h
            exact hsub
          · split at h
            · simp at h
            · rename_i results
              split at h
              · simp at h
              · rename_i u st₄ heq4
                cases h
                have h4 := flushRemap_tempDirs p results
                  ⟨removeDir st₂.tempDirs (pathJoin (dirname p) "tmp"), st₂.rows⟩
                rw [heq4] at h4
                rw [h4]
                exact hsub
      · simp at h
    · simp at h
  · simp at h

lemma rfafN_temp_sub : ∀ fuel, TempSub (rfafN fuel)
  | 0 => by
    intro p i e c out cfg st r st' h
    simp [rfafN] at h
  | Nat.succ f => archiveBody_temp_sub (rfafN_temp_sub f)

/-! ### Success implies the integrity test passed -/

lemma archiveBody_intact (F : ArchFn) : OkIntact (archiveBody F) := by
  intro p i e c out cfg st r st' h
  simp only [archiveBody] at h
  split at h
  · split at h
    · rename_i hi
      exact hi
    · simp at h
  · simp at h

lemma rfafN_intact : ∀ fuel, OkIntact (rfafN fuel)
  | 0 => by
    intro p i e c out cfg st r st' h
    simp [rfafN] at h
  | Nat.succ f => archiveBody_intact (rfafN f)

/-! ### With a sink, successful archive calls return `None` -/

lemma archiveBody_sink_none (F : ArchFn) : SinkNone (archiveBody F) := by
  intro p i e c o cfg st r st' h
  simp only [archiveBody] at h
  split at h
  · split at h
    · split at h
      · split at h
        · simp at h
        · split at h
          · simp at h
          · split at h
            · simp at h
            · rename_i u st₄ heq4
              cases h
              rfl
      · simp at h
    · simp at h
  · simp at h

lemma rfafN_sink_none : ∀ fuel, SinkNone (rfafN fuel)
  | 0 => by
    intro p i e c o cfg st r st' h
    simp [rfafN] at h
  | Nat.succ f => archiveBody_sink_none (rfafN f)

/-! ### Success removes this call's temp directory -/

lemma archiveBody_ok_removed (F : ArchFn) : OkRemoved (archiveBody F) := by
  intro p i e c out cfg st r st' h
  simp only [archiveBody] at h
  split at h
  · split at h
    · split at h
      · split at h
        · simp at h
        · rename_i res st₂ heq
          split at h
          · cases h
            exact not_mem_removeDir_self _ _
          · split at h
            · simp at h
            · rename_i results
              split at h
              · simp at h
              · rename_i u st₄ heq4
                cases h
                have h4 := flushRemap_tempDirs p results
                  ⟨removeDir st₂.tempDirs (pathJoin (dirname p) "tmp"), st₂.rows⟩
                rw [heq4] at h4
                rw [h4]
                exact not_mem_removeDir_self _ _
      · simp at h
    · simp at h
  · simp at h

lemma rfafN_ok_removed : ∀ fuel, OkRemoved (rfafN fuel)
  | 0 => by
    intro p i e c out cfg st r st' h
    simp [rfafN] at h
  | Nat.succ f => archiveBody_ok_removed (rfafN f)

/-! ### Returned keys live inside the temp workspace -/

lemma procEntries_keys {F : ArchFn} (hF : KeysPref F) (root : String) :
    ∀ (entries : List FileEntry) (cfg : ConfigValue) (acc : ResultSet)
      (st : St) (r : ResultSet) (st' : St),
      (∀ e ∈ entries, GoodEntry root e) →
      procEntriesWith F entries none cfg acc st = (.ok r, st') →
      ∀ kv ∈ r, kv ∈ acc ∨ strPrefix (root ++ "/") kv.1
  | [], cfg, acc, st, r, st', _, h => by
    simp only [procEntriesWith] at h
    cases h
    exact fun kv hkv => Or.inl hkv
  | e :: rest, cfg, acc, st, r, st', hG, h => by
    simp only [procEntriesWith] at h
    split at h
    · split at h
      · simp at h
      · rename_i sc st₂ heq
        intro kv hkv
        rcases procEntries_keys hF root rest cfg _ st₂ r st'
          (fun e' he' => hG e' (List.mem_cons_of_mem _ he')) h kv hkv with
          hacc | hpfx
        · rcases mem_dinsert hacc with hin | hkveq
          · exact Or.inl hin
          · right
            rw [hkveq]
            exact (hG e (by simp)).1
        · exact Or.inr hpfx
    · split at h
      · split at h
        · simp at h
        · simp at h
        · rename_i r₀ st₂ heq
          intro kv hkv
          rcases procEntries_keys hF root rest cfg _ st₂ r st'
            (fun e' he' => hG e' (List.mem_cons_of_mem _ he')) h kv hkv with
            hacc | hpfx
          · rcases mem_dupdate r₀ acc hacc with hin | hinr
            · exact Or.inl hin
            · right
              have hpr := hF e.path e.intact e.extractOk e.contents cfg st r₀
                st₂ (hG e (by simp)).2.2 heq kv hinr
              exact strPrefix_trans (hG e (by simp)).2.1 hpr
          · exact Or.inr hpfx
      · intro kv hkv
        exact procEntries_keys hF root rest cfg acc st r st'
          (fun e' he' => hG e' (List.mem_cons_of_mem _ he')) h kv hkv

lemma dirBody_keys {F : ArchFn} (hF : KeysPref F) (root : String)
    (ns : Forest) (cfg : ConfigValue) (st : St) {r : ResultSet} {st' : St}
    (hroot : goodRootB root = true) (hwf : forestWF ns = true)
    (h : dirBody F root ns none cfg st = (.ok (some r), st')) :
    ∀ kv ∈ r, strPrefix (root ++ "/") kv.1 := by
  unfold dirBody at h
  split at h
  · simp at h
  · rename_i res st₂ heq
    have hres : res = r ∧ st₂ = st' := by
      constructor
      · have := congrArg Prod.fst h
        simpa using this
      · have := congrArg Prod.snd h
        simpa using this
    obtain ⟨rfl, rfl⟩ := hres
    intro kv hkv
    rcases procEntries_keys hF root (walkList root ns) cfg [] st res st₂
      (walkList_good root ns hroot hwf) heq kv hkv with hacc | hpfx
    · simp at hacc
    · exact hpfx

lemma archiveBody_keys {F : ArchFn} (hF : KeysPref F) :
    KeysPref (archiveBody F) := by
  intro p i e c cfg st r st' hwf h
  simp only [archiveBody] at h
  split at h
  · split at h
    · split at h
      · split at h
        · simp at h
        · rename_i res st₂ heq
          have hres : res = some r := by
            have := congrArg Prod.fst h
            simpa using this
          rw [hres] at heq
          exact dirBody_keys hF (pathJoin (dirname p) "tmp") c cfg _
            (goodRootB_join_tmp _) hwf heq
      · simp at h
    · simp at h
  · simp at h

lemma rfafN_keys : ∀ fuel, KeysPref (rfafN fuel)
  | 0 => by
    intro p i e c cfg st r st' hwf h
    simp [rfafN] at h
  | Nat.succ f => archiveBody_keys (rfafN_keys f)

/-! ### Recognized extension sets are disjoint -/

lemma img_not_arch {s : String} (h : s ∈ IMAGE_EXTENSIONS) :
    s ∉ ARCHIVE_EXTENSIONS := by
  intro h2
  simp [IMAGE_EXTENSIONS] at h
  rcases h with rfl | rfl | rfl | rfl <;> exact absurd h2 (by decide)

/-! ### Traversal success forces every encountered archive to be intact -/

lemma procEntries_intact {F : ArchFn} (hF : OkIntact F) :
    ∀ (entries : List FileEntry) (out : Option String) (cfg : ConfigValue)
      (acc : ResultSet) (st : St) (r : ResultSet) (st' : St),
      procEntriesWith F entries out cfg acc st = (.ok r, st') →
      ∀ e ∈ entries, extOf e.name ∈ ARCHIVE_EXTENSIONS → e.intact = true
  | [], out, cfg, acc, st, r, st', h => by
    intro e he
    simp at he
  | e :: rest, out, cfg, acc, st, r, st', h => by
    simp only [procEntriesWith] at h
    split at h
    · rename_i himg
      split at h
      · simp at h
      · rename_i sc st₂ heq
        intro e' he' harch
        rcases List.mem_cons.mp he' with rfl | hmem
        · exact absurd harch (img_not_arch himg)
        · exact procEntries_intact hF rest out cfg _ st₂ r st' h e' hmem harch
    · split at h
      · split at h
        · simp at h
        · simp at h
        · rename_i r₀ st₂ heq
          intro e' he' harch
          rcases List.mem_cons.mp he' with rfl | hmem
          · exact hF _ _ _ _ _ _ _ _ _ heq
          · exact procEntries_intact hF rest out cfg _ st₂ r st' h e' hmem harch
      · rename_i himg harch0
        intro e' he' harch
        rcases List.mem_cons.mp he' with rfl | hmem
        · exact absurd harch harch0
        · exact procEntries_intact hF rest out cfg acc st r st' h e' hmem harch

/-! ### With a sink, traversal success forces an empty walk of recognized
entries -/

lemma procEntries_sink {F : ArchFn} (hF : SinkNone F) :
    ∀ (entries : List FileEntry) (o : String) (cfg : ConfigValue)
      (acc : ResultSet) (st : St) (r : ResultSet) (st' : St),
      procEntriesWith F entries (some o) cfg acc st = (.ok r, st') →
      (∀ e ∈ entries, extOf e.name ∉ ARCHIVE_EXTENSIONS) ∧
      (∀ kv ∈ r, kv ∈ acc ∨ kv.2 = none) ∧
      (∀ k ∈ dkeys acc, k ∈ dkeys r) ∧
      (∀ e ∈ entries, extOf e.name ∈ IMAGE_EXTENSIONS → e.path ∈ dkeys r)
  | [], o, cfg, acc, st, r, st', h => by
    simp only [procEntriesWith] at h
    cases h
    exact ⟨by simp, fun kv hkv => Or.inl hkv, fun k hk => hk, by simp⟩
  | e :: rest, o, cfg, acc, st, r, st', h => by
    simp only [procEntriesWith] at h
    split at h
    · rename_i himg
      split at h
      · simp at h
      · rename_i sc st₂ heq
        have hsc : sc = none := read_from_file_sink_none heq
        subst hsc
        obtain ⟨ih1, ih2, ih3, ih4⟩ :=
          procEntries_sink hF rest o cfg _ st₂ r st' h
        refine ⟨?_, ?_, ?_, ?_⟩
        · intro e' he'
          rcases List.mem_cons.mp he' with rfl | hmem
          · exact img_not_arch himg
          · exact ih1 e' hmem
        · intro kv hkv
          rcases ih2 kv hkv with hacc | hnone
          · rcases mem_dinsert hacc with hin | hkveq
            · exact Or.inl hin
            · right
              rw [hkveq]
          · exact Or.inr hnone
        · intro k hk
          exact ih3 k (dkeys_dinsert_mono _ _ hk)
        · intro e' he' himg'
          rcases List.mem_cons.mp he' with rfl | hmem
          · exact ih3 _ (dkeys_dinsert_self acc e'.path none)
          · exact ih4 e' hmem himg'
    · split at h
      · split at h
        · simp at h
        · simp at h
        · rename_i r₀ st₂ heq
          exact absurd (hF _ _ _ _ _ _ _ _ _ heq) (by simp)
      · rename_i himg harch
        obtain ⟨ih1, ih2, ih3, ih4⟩ :=
          procEntries_sink hF rest o cfg acc st r st' h
        refine ⟨?_, ih2, ih3, ?_⟩
        · intro e' he'
          rcases List.mem_cons.mp he' with rfl | hmem
          · exact harch
          · exact ih1 e' hmem
        · intro e' he' himg'
          rcases List.mem_cons.mp he' with rfl | hmem
          · exact absurd himg' himg
          · exact ih4 e' hmem himg'

/-! ### Unrecognized entries are skipped without any effect -/

lemma procEntries_skip {F : ArchFn} :
    ∀ (entries : List FileEntry) (out : Option String) (cfg : ConfigValue)
      (acc : ResultSet) (st : St),
      (∀ e ∈ entries, extOf e.name ∉ IMAGE_EXTENSIONS ∧
        extOf e.name ∉ ARCHIVE_EXTENSIONS) →
      procEntriesWith F entries out cfg acc st = (.ok acc, st)
  | [], _, _, _, _, _ => rfl
  | e :: rest, out, cfg, acc, st, h => by
    have he := h e (by simp)
    simp only [procEntriesWith, if_neg he.1, if_neg he.2]
    exact procEntries_skip rest out cfg acc st
      (fun e' he' => h e' (List.mem_cons_of_mem _ he'))

/-! ### Archive success implies a recognized archive extension -/

lemma archiveBody_ok_ext {F : ArchFn} {p : String} {i e : Bool} {c : Forest}
    {out : Option String} {cfg : ConfigValue} {st : St}
    {r : Option ResultSet} {st' : St}
    (h : archiveBody F p i e c out cfg st = (.ok r, st')) :
    extOf p ∈ ARCHIVE_EXTENSIONS := by
  simp only [archiveBody] at h
  split at h
  · assumption
  · simp at h

lemma rfafN_ok_ext : ∀ {fuel : Nat} {p : String} {i e : Bool} {c : Forest}
    {out : Option String} {cfg : ConfigValue} {st : St}
    {r : Option ResultSet} {st' : St},
    rfafN fuel p i e c out cfg st = (.ok r, st') →
    extOf p ∈ ARCHIVE_EXTENSIONS := by
  intro fuel
  cases fuel with
  | zero =>
    intro p i e c out cfg st r st' h
    simp [rfafN] at h
  | succ f =>
    intro p i e c out cfg st r st' h
    exact archiveBody_ok_ext h

/-! ### With a sink, a successful archive call appends exactly the remapped
rows -/

lemma archiveBody_sink_rows {F : ArchFn} (hFrows : RowsNone F) {p : String}
    {i e : Bool} {c : Forest} {o : String} {cfg : ConfigValue} {st : St}
    {r : Option ResultSet} {st' : St}
    (h : archiveBody F p i e c (some o) cfg st = (.ok r, st')) :
    ∃ results, st'.rows = st.rows ++ remapRows p results := by
  simp only [archiveBody] at h
  split at h
  · split at h
    · split at h
      · split at h
        · simp at h
        · rename_i res st₂ heq
          have hrows : st₂.rows = st.rows := by
            have h2 := dirBody_rows_none hFrows (pathJoin (dirname p) "tmp")
              c cfg ⟨addDir st.tempDirs (pathJoin (dirname p) "tmp"), st.rows⟩
            rw [heq] at h2
            exact h2
          split at h
          · simp at h
          · rename_i results
            split at h
            · simp at h
            · rename_i u st₄ heq4
              cases h
              refine ⟨results, ?_⟩
              have h4 := flushRemap_ok_rows p results
                ⟨removeDir st₂.tempDirs (pathJoin (dirname p) "tmp"), st₂.rows⟩
                heq4
              rw [h4, hrows]
      · simp at h
    · simp at h
  · simp at h

/-! ### Shape of the remapped rows -/

lemma remapRows_mem {p : String} {rs : ResultSet} {row : String × String}
    (h : row ∈ remapRows p rs) :
    ∃ k0, row.1 = p ++ "/" ++ get_file_name k0 := by
  unfold remapRows at h
  rw [List.mem_flatMap] at h
  obtain ⟨kv, hkv, hrow⟩ := h
  cases hv : kv.2 with
  | none =>
    rw [hv] at hrow
    simp at hrow
  | some lines =>
    rw [hv] at hrow
    rw [List.mem_map] at hrow
    obtain ⟨l, hl, hrow⟩ := hrow
    exact ⟨kv.1, by rw [← hrow]⟩

lemma tmp_not_prefix {d b n : String} (hd : goodRootB d = true)
    (hb : goodNameB b = true) (hbne : b ≠ "tmp") :
    ¬ strPrefix (pathJoin (dirname (d ++ "/" ++ b)) "tmp" ++ "/")
        ((d ++ "/" ++ b) ++ "/" ++ n) := by
  rw [dirname_append d b hd (goodNameB_no_slash hb),
    pathJoin_eq d "tmp" hd (by decide)]
  intro hpre
  unfold strPrefix at hpre
  have e1 : (d ++ "/" ++ "tmp" ++ "/").data
      = (d.data ++ ['/']) ++ ("tmp".data ++ '/' :: []) := by
    simp [String.data_append]
  have e2 : ((d ++ "/" ++ b) ++ "/" ++ n).data
      = (d.data ++ ['/']) ++ (b.data ++ '/' :: n.data) := by
    simp [String.data_append]
  rw [e1, e2] at hpre
  have hcan := prefix_cancel_left hpre
  have heq := slashFree_prefix_eq ("tmp" : String).data b.data (by decide)
    (goodNameB_no_slash hb) [] n.data hcan
  exact hbne (String.ext heq.symm)

/-! ## Claim theorems -/

/-- C10: for every directory that contains no entries (the model of an
empty or nonexistent directory, for which `os.walk` yields nothing),
`read_from_directory` with no output path returns an empty mapping without
raising, leaving the state untouched — for any fuel, root, config and
state. -/
theorem c10_empty_directory :
    ∀ (fuel : Nat) (root : String) (cfg : ConfigValue) (st : St),
      read_from_directory fuel root Forest.nil none cfg st
        = (.ok (some []), st) := by
  intro fuel root cfg st
  rfl

/-- C7: during recursive directory traversal every entry whose extension is
neither a recognized image extension nor a recognized archive extension is
silently skipped: if every walked entry is unrecognized, the traversal
returns an empty result set, raises nothing and leaves the state untouched;
in particular a directory containing only `cover.gif` yields an empty
result set and no error. -/
theorem c7_skip_unrecognized :
    (∀ (fuel : Nat) (root : String) (ns : Forest) (cfg : ConfigValue)
      (st : St),
      (∀ e ∈ walkList root ns, extOf e.name ∉ IMAGE_EXTENSIONS ∧
        extOf e.name ∉ ARCHIVE_EXTENSIONS) →
      read_from_directory fuel root ns none cfg st = (.ok (some []), st)) ∧
    (read_from_directory 0 "comics"
      (Forest.ofList [Node.file "cover.gif" [] true true .nil]) none
      (ConfigValue.config ⟨⟩) ⟨[], []⟩ = (.ok (some []), ⟨[], []⟩)) := by
  constructor
  · intro fuel root ns cfg st h
    unfold read_from_directory dirBody
    rw [procEntries_skip (walkList root ns) none cfg [] st h]
  · decide

/-- C5: merging two result dictionaries with disjoint key sets (keys of a
dictionary are unique) yields a dictionary whose size is the sum of the two
sizes, and merging two dictionaries that share a key yields, for that key,
the value from the second (merged-in) dictionary — exactly the
`results.update(...)` semantics used by `read_from_directory`. -/
theorem c5_merge_semantics :
    (∀ (a b : ResultSet), (dkeys b).Nodup → (∀ k ∈ dkeys b, k ∉ dkeys a) →
      (dupdate a b).length = a.length + b.length) ∧
    (∀ (a b : ResultSet) (k : String), (dkeys b).Nodup → k ∈ dkeys b →
      dlookup (dupdate a b) k = dlookup b k) := by
  constructor
  · intro a b h1 h2
    exact dupdate_length_disjoint b a h1 h2
  · intro a b k h1 h2
    exact dlookup_dupdate_mem b a h1 h2

/-- C6: a direct single-file call on a path whose extension is not in the
recognized set raises an exception whose message names the offending
extension — `read_from_file` for images and `read_from_archive_file` for
archives — and in particular a `.gif` path raises the unsupported-format
error naming `.gif`. -/
theorem c6_unsupported_extension :
    (∀ (p : String) (s : List String) (out : Option String)
      (cfg : ConfigValue) (st : St),
      extOf p ∉ IMAGE_EXTENSIONS →
      read_from_file p s out cfg st
        = (.error (.exception ("Unsupported image file format: " ++ extOf p)),
           st)) ∧
    (∀ (fuel : Nat) (p : String) (i e : Bool) (c : Forest)
      (out : Option String) (cfg : ConfigValue) (st : St),
      extOf p ∉ ARCHIVE_EXTENSIONS →
      read_from_archive_file (fuel + 1) p i e c out cfg st
        = (.error
            (.exception ("Unsupported archive file format: " ++ extOf p)),
           st)) ∧
    (read_from_file "page.gif" [] none (ConfigValue.config ⟨⟩) ⟨[], []⟩
      = (.error (.exception "Unsupported image file format: .gif"),
         ⟨[], []⟩)) ∧
    extOf "page.gif" = ".gif" := by
  refine ⟨?_, ?_, by decide, by decide⟩
  · intro p s out cfg st h
    unfold read_from_file
    rw [if_neg h]
  · intro fuel p i e c out cfg st h
    show archiveBody (rfafN fuel) p i e c out cfg st = _
    simp only [archiveBody]
    rw [if_neg h]

/-- C6 witness: the general parts applied at `.gif` paths. -/
theorem c6_unsupported_extension_witness :
    read_from_file "x.gif" ["L"] none ConfigValue.other ⟨[], []⟩
      = (.error (.exception ("Unsupported image file format: "
          ++ extOf "x.gif")), ⟨[], []⟩) ∧
    read_from_archive_file 1 "x.gif" true true Forest.nil none
      (ConfigValue.config ⟨⟩) ⟨[], []⟩
      = (.error (.exception ("Unsupported archive file format: "
          ++ extOf "x.gif")), ⟨[], []⟩) :=
  ⟨c6_unsupported_extension.1 "x.gif" ["L"] none ConfigValue.other ⟨[], []⟩
      (by decide),
   c6_unsupported_extension.2.1 0 "x.gif" true true Forest.nil none
      (ConfigValue.config ⟨⟩) ⟨[], []⟩ (by decide)⟩

/-- C1 counterexample: a failing extraction skips the `rm -rf` line, so the
temporary workspace directory `d/tmp` created for the call to
`read_from_archive_file` remains on disk after the error — cleanup is not
unconditional. -/
theorem c1_counterexample :
    read_from_archive_file 1 "d/a.cbr" true false Forest.nil none
      (ConfigValue.config ⟨⟩) ⟨[], []⟩
      = (.error (.extractionFailed "d/a.cbr"), ⟨["d/tmp"], []⟩) ∧
    pathJoin (dirname "d/a.cbr") "tmp" = "d/tmp" := by
  decide

/-- C1 amended: the temporary workspace directory is removed only on the
success path — when `read_from_archive_file` returns normally, its `tmp`
workspace is gone and no new temp directory remains; but when extraction
raises, the removal is skipped and the directory created for the call
remains on disk (the same happens when the recursive processing raises). -/
theorem c1_amended :
    (∀ (fuel : Nat) (path : String) (i e : Bool) (c : Forest)
      (out : Option String) (cfg : ConfigValue) (st : St)
      (r : Option ResultSet) (st' : St),
      read_from_archive_file fuel path i e c out cfg st = (.ok r, st') →
      pathJoin (dirname path) "tmp" ∉ st'.tempDirs ∧
        st'.tempDirs ⊆ st.tempDirs) ∧
    (∀ (fuel : Nat) (path : String) (c : Forest) (out : Option String)
      (cfg : ConfigValue) (st : St),
      extOf path ∈ ARCHIVE_EXTENSIONS →
      read_from_archive_file (fuel + 1) path true false c out cfg st
        = (.error (.extractionFailed path),
           ⟨addDir st.tempDirs (pathJoin (dirname path) "tmp"), st.rows⟩) ∧
      pathJoin (dirname path) "tmp"
        ∈ addDir st.tempDirs (pathJoin (dirname path) "tmp")) := by
  constructor
  · intro fuel path i e c out cfg st r st' h
    exact ⟨rfafN_ok_removed fuel _ _ _ _ _ _ _ _ _ h,
      rfafN_temp_sub fuel _ _ _ _ _ _ _ _ _ h⟩
  · intro fuel path c out cfg st hext
    constructor
    · show archiveBody (rfafN fuel) path true false c out cfg st = _
      simp only [archiveBody]
      rw [if_pos hext]
      simp
    · exact mem_addDir.mpr (Or.inl rfl)

/-- C1 amended witness: the success part at the `book.cbr` scenario run and
the failure part at a failing extraction. -/
theorem c1_amended_witness :
    (pathJoin (dirname "d/book.cbr") "tmp"
        ∉ (⟨[], []⟩ : St).tempDirs ∧
      (⟨[], []⟩ : St).tempDirs ⊆ (⟨[], []⟩ : St).tempDirs) ∧
    (read_from_archive_file 1 "d/a.cbr" true false Forest.nil none
        (ConfigValue.config ⟨⟩) ⟨[], []⟩
        = (.error (.extractionFailed "d/a.cbr"),
           ⟨addDir ([] : List String) (pathJoin (dirname "d/a.cbr") "tmp"),
            []⟩) ∧
      pathJoin (dirname "d/a.cbr") "tmp"
        ∈ addDir ([] : List String) (pathJoin (dirname "d/a.cbr") "tmp")) :=
  ⟨c1_amended.1 2 "d/book.cbr" true true
      (Forest.ofList [Node.file "page1.jpg" ["HELLO"] true true .nil]) none
      (ConfigValue.config ⟨⟩) ⟨[], []⟩
      (some [("d/tmp/page1.jpg", some ["HELLO"])]) ⟨[], []⟩ (by decide),
   c1_amended.2 0 "d/a.cbr" Forest.nil none (ConfigValue.config ⟨⟩)
      ⟨[], []⟩ (by decide)⟩

/-- C2 counterexample: processing `book.cbr` (containing `page1.jpg`,
`page2.jpg` recognized as `HELLO` / `WORLD`) without an output sink returns
a mapping keyed by the temporary extraction paths `d/tmp/page1.jpg`,
`d/tmp/page2.jpg` — not by `book.cbr/page1.jpg` — and those keys lie inside
the `tmp` workspace that the call deleted. -/
theorem c2_counterexample :
    read_from_archive_file 2 "d/book.cbr" true true
      (Forest.ofList [Node.file "page1.jpg" ["HELLO"] true true .nil,
                      Node.file "page2.jpg" ["WORLD"] true true .nil])
      none (ConfigValue.config ⟨⟩) ⟨[], []⟩
      = (.ok (some [("d/tmp/page1.jpg", some ["HELLO"]),
                    ("d/tmp/page2.jpg", some ["WORLD"])]), ⟨[], []⟩) ∧
    "d/book.cbr/page1.jpg"
      ∉ dkeys [("d/tmp/page1.jpg", some ["HELLO"]),
               ("d/tmp/page2.jpg", some ["WORLD"])] ∧
    strPrefix (pathJoin (dirname "d/book.cbr") "tmp" ++ "/")
      "d/tmp/page1.jpg" := by
  refine ⟨by decide, by decide, by decide⟩

/-- C2 amended: when an archive is processed without an output sink, every
key of the returned result mapping is a path inside the temporary workspace
directory (`dirname(archivePath)/tmp/...`), and that directory has been
deleted by the time the call returns — the `archivePath + "/" + pageName`
rewriting happens only in the output-sink branch, so the returned keys do
reference the deleted temporary directory. -/
theorem c2_amended :
    ∀ (fuel : Nat) (path : String) (i e : Bool) (c : Forest)
      (cfg : ConfigValue) (st : St) (r : ResultSet) (st' : St),
      forestWF c = true →
      read_from_archive_file fuel path i e c none cfg st
        = (.ok (some r), st') →
      (∀ kv ∈ r, strPrefix (pathJoin (dirname path) "tmp" ++ "/") kv.1) ∧
      pathJoin (dirname path) "tmp" ∉ st'.tempDirs := by
  intro fuel path i e c cfg st r st' hwf h
  exact ⟨rfafN_keys fuel _ _ _ _ _ _ _ _ hwf h,
    rfafN_ok_removed fuel _ _ _ _ _ _ _ _ _ h⟩

/-- C2 amended witness: the amended statement at the `book.cbr` scenario. -/
theorem c2_amended_witness :
    strPrefix (pathJoin (dirname "d/book.cbr") "tmp" ++ "/")
      ("d/tmp/page1.jpg", some ["HELLO"]).1 ∧
    pathJoin (dirname "d/book.cbr") "tmp" ∉ (⟨[], []⟩ : St).tempDirs :=
  ⟨(c2_amended 2 "d/book.cbr" true true
      (Forest.ofList [Node.file "page1.jpg" ["HELLO"] true true .nil,
                      Node.file "page2.jpg" ["WORLD"] true true .nil])
      (ConfigValue.config ⟨⟩) ⟨[], []⟩
      [("d/tmp/page1.jpg", some ["HELLO"]),
       ("d/tmp/page2.jpg", some ["WORLD"])] ⟨[], []⟩ (by decide)
      (by decide)).1 ("d/tmp/page1.jpg", some ["HELLO"]) (by decide),
   (c2_amended 2 "d/book.cbr" true true
      (Forest.ofList [Node.file "page1.jpg" ["HELLO"] true true .nil,
                      Node.file "page2.jpg" ["WORLD"] true true .nil])
      (ConfigValue.config ⟨⟩) ⟨[], []⟩
      [("d/tmp/page1.jpg", some ["HELLO"]),
       ("d/tmp/page2.jpg", some ["WORLD"])] ⟨[], []⟩ (by decide)
      (by decide)).2⟩

/-- C3 counterexample: a directory containing a corrupt archive `bad.cbr`
and a healthy sibling image `ok.jpg` — the integrity failure propagates as
an exception out of `read_from_directory`, so no result set is returned at
all and the sibling's results appear nowhere: the failure is fatal to the
whole traversal, not only to that archive. -/
theorem c3_counterexample :
    read_from_directory 5 "d"
      (Forest.ofList [Node.file "bad.cbr" [] false true .nil,
                      Node.file "ok.jpg" ["HI"] true true .nil])
      none (ConfigValue.config ⟨⟩) ⟨[], []⟩
      = (.error (.corruptArchive "d/bad.cbr"), ⟨[], []⟩) := by
  decide

/-- C3 amended: an integrity-check failure aborts the entire directory
traversal — equivalently, whenever `read_from_directory` returns at all,
every archive-extension entry it walked passed the integrity check; a
sibling after a corrupt archive is never processed because the exception
propagates uncaught. -/
theorem c3_amended :
    ∀ (fuel : Nat) (root : String) (ns : Forest) (out : Option String)
      (cfg : ConfigValue) (st : St) (r : Option ResultSet) (st' : St),
      read_from_directory fuel root ns out cfg st = (.ok r, st') →
      ∀ e ∈ walkList root ns, extOf e.name ∈ ARCHIVE_EXTENSIONS →
        e.intact = true := by
  intro fuel root ns out cfg st r st' h
  unfold read_from_directory dirBody at h
  split at h
  · simp at h
  · rename_i res st₂ heq
    exact procEntries_intact (rfafN_intact fuel) (walkList root ns) out cfg
      [] st res st₂ heq

/-- C3 amended witness: a successful traversal over one intact archive. -/
theorem c3_amended_witness :
    (⟨"d/a.cbr", "a.cbr", [], true, true, Forest.nil⟩ : FileEntry).intact
      = true :=
  c3_amended 1 "d" (Forest.ofList [Node.file "a.cbr" [] true true .nil])
    none (ConfigValue.config ⟨⟩) ⟨[], []⟩ (some []) ⟨[], []⟩ (by decide)
    ⟨"d/a.cbr", "a.cbr", [], true, true, Forest.nil⟩ (by decide) (by decide)

/-- C8 counterexample: a textual key-value block (a string not starting
with a brace) is neither normalized nor rejected with the
unsupported-config-type error — the dispatch leaves `reader` unassigned and
the call dies with an UnboundLocalError instead. -/
theorem c8_counterexample :
    read_from_file "a.jpg" ["X"] none
      (ConfigValue.str "speechBubbleSize = 100") ⟨[], []⟩
      = (.error .unboundLocal, ⟨[], []⟩) ∧
    Err.unboundLocal ≠ Err.exception "Unsupported config type" ∧
    configDispatch (ConfigValue.str "speechBubbleSize = 100")
      ≠ ConfigOutcome.normalized := by
  refine ⟨by decide, by decide, by decide⟩

/-- C8 amended: the configuration is accepted in three shapes — a structured
`Config` object (used as is), a mapping (normalized), and a string that
starts with `'{'` (evaluated as a mapping literal and normalized); a value
of any *other type* raises the unsupported-config-type error, but a string
that does not start with `'{'` is neither normalized nor given that error:
the reader is left unbound and the call fails with an UnboundLocalError. -/
theorem c8_amended :
    ∀ (p : String) (s : List String) (st : St),
      extOf p ∈ IMAGE_EXTENSIONS →
      (∀ cobj, read_from_file p s none (ConfigValue.config cobj) st
        = (.ok (some s), st)) ∧
      (∀ d, read_from_file p s none (ConfigValue.dict d) st
        = (.ok (some s), st)) ∧
      (∀ t, startsBrace t = true →
        read_from_file p s none (ConfigValue.str t) st = (.ok (some s), st)) ∧
      (read_from_file p s none ConfigValue.other st
        = (.error (.exception "Unsupported config type"), st)) ∧
      (∀ t, startsBrace t = false →
        read_from_file p s none (ConfigValue.str t) st
          = (.error .unboundLocal, st)) := by
  intro p s st himg
  refine ⟨?_, ?_, ?_, ?_, ?_⟩
  · intro cobj
    unfold read_from_file
    rw [if_pos himg]
    rfl
  · intro d
    unfold read_from_file
    rw [if_pos himg]
    rfl
  · intro t ht
    unfold read_from_file
    rw [if_pos himg]
    simp [configDispatch, ht]
  · unfold read_from_file
    rw [if_pos himg]
    rfl
  · intro t ht
    unfold read_from_file
    rw [if_pos himg]
    simp [configDispatch, ht]

/-- C8 amended witness: all five shapes at a concrete image path. -/
theorem c8_amended_witness :
    read_from_file "a.jpg" ["X"] none (ConfigValue.config ⟨⟩) ⟨[], []⟩
      = (.ok (some ["X"]), ⟨[], []⟩) ∧
    read_from_file "a.jpg" ["X"] none
      (ConfigValue.str "\x7b'speechBubbleSize': 100\x7d") ⟨[], []⟩
      = (.ok (some ["X"]), ⟨[], []⟩) ∧
    read_from_file "a.jpg" ["X"] none ConfigValue.other ⟨[], []⟩
      = (.error (.exception "Unsupported config type"), ⟨[], []⟩) :=
  ⟨(c8_amended "a.jpg" ["X"] ⟨[], []⟩ (by decide)).1 ⟨⟩,
   (c8_amended "a.jpg" ["X"] ⟨[], []⟩ (by decide)).2.2.1
      "\x7b'speechBubbleSize': 100\x7d" (by decide),
   (c8_amended "a.jpg" ["X"] ⟨[], []⟩ (by decide)).2.2.2.1⟩

/-- C9: with a truthy `outputPath`, `read_from_file` returns `None` after
writing; consequently `read_from_directory` with a sink can only return
normally when its walk contains no recognized entry at all — a directory
with an image dies with a `TypeError` when the final flush iterates the
stored `None`, and a directory with an archive dies with a `TypeError` at
`results.update(None)`. -/
theorem c9_sink_directory_fails :
    (∀ (fuel : Nat) (root : String) (ns : Forest) (o : String)
      (cfg : ConfigValue) (st : St) (r : Option ResultSet) (st' : St),
      read_from_directory fuel root ns (some o) cfg st = (.ok r, st') →
      ∀ e ∈ walkList root ns, extOf e.name ∉ IMAGE_EXTENSIONS ∧
        extOf e.name ∉ ARCHIVE_EXTENSIONS) ∧
    (read_from_directory 1 "d"
      (Forest.ofList [Node.file "a.jpg" ["X"] true true .nil])
      (some "out.csv") (ConfigValue.config ⟨⟩) ⟨[], []⟩
      = (.error .typeError, ⟨[], [("d/a.jpg", "X")]⟩)) ∧
    (read_from_directory 2 "d"
      (Forest.ofList [Node.file "b.cbr" [] true true .nil]) (some "o")
      (ConfigValue.config ⟨⟩) ⟨[], []⟩ = (.error .typeError, ⟨[], []⟩)) ∧
    (read_from_file "a.jpg" ["X"] (some "out.csv") (ConfigValue.config ⟨⟩)
      ⟨[], []⟩ = (.ok none, ⟨[], [("a.jpg", "X")]⟩)) := by
  refine ⟨?_, by decide, by decide, by decide⟩
  intro fuel root ns o cfg st r st' h
  unfold read_from_directory dirBody at h
  split at h
  · simp at h
  · rename_i res st₂ heq
    obtain ⟨h1, h2, h3, h4⟩ := procEntries_sink (rfafN_sink_none fuel)
      (walkList root ns) o cfg [] st res st₂ heq
    split at h
    · split at h
      · simp at h
      · rename_i u st₃ heq3
        have hvals := flushResults_ok_vals res st₂ heq3
        have hres : res = [] := by
          rw [List.eq_nil_iff_forall_not_mem]
          intro kv hkv
          rcases h2 kv hkv with hacc | hnone
          · simp at hacc
          · exact hvals kv hkv hnone
        intro e he
        refine ⟨?_, h1 e he⟩
        intro himg
        have h5 := h4 e he himg
        rw [hres] at h5
        simp [dkeys] at h5
    · rename_i heqo
      simp at heqo

/-- C9 witness: the general part applied at a successful sink run over a
directory whose only entry is unrecognized. -/
theorem c9_sink_directory_fails_witness :
    extOf "x.txt" ∉ IMAGE_EXTENSIONS ∧
    extOf "x.txt" ∉ ARCHIVE_EXTENSIONS :=
  c9_sink_directory_fails.1 1 "d"
    (Forest.ofList [Node.file "x.txt" [] true true .nil]) "o"
    (ConfigValue.config ⟨⟩) ⟨[], []⟩ none ⟨[], []⟩ (by decide)
    ⟨"d/x.txt", "x.txt", [], true, true, Forest.nil⟩ (by decide)

/-- C4: whenever an output sink is supplied and an archive is processed
successfully, every row the call appends to the sink uses the remapped
logical key `archivePath ++ "/" ++ pageName` (a separator-free page name),
and no appended row key is a raw path inside the temporary workspace
`dirname(archivePath)/tmp` — the inner directory read runs without the
sink, so only the remap loop writes. -/
theorem c4_sink_rows_remapped :
    ∀ (fuel : Nat) (d b : String) (i e : Bool) (c : Forest) (o : String)
      (cfg : ConfigValue) (st : St) (r : Option ResultSet) (st' : St),
      goodRootB d = true → goodNameB b = true →
      read_from_archive_file fuel (d ++ "/" ++ b) i e c (some o) cfg st
        = (.ok r, st') →
      ∃ newRows, st'.rows = st.rows ++ newRows ∧
        ∀ row ∈ newRows,
          (∃ n, sepFreeB n = true ∧ row.1 = (d ++ "/" ++ b) ++ "/" ++ n) ∧
          ¬ strPrefix
              (pathJoin (dirname (d ++ "/" ++ b)) "tmp" ++ "/") row.1 := by
  intro fuel d b i e c o cfg st r st' hd hb h
  cases fuel with
  | zero => simp [read_from_archive_file, rfafN] at h
  | succ f =>
    have harch : extOf (d ++ "/" ++ b) ∈ ARCHIVE_EXTENSIONS := rfafN_ok_ext h
    have hbne : b ≠ "tmp" := by
      intro hbt
      rw [hbt, extOf_append d "tmp" (by decide)] at harch
      exact absurd harch (by decide)
    have h' : archiveBody (rfafN f) (d ++ "/" ++ b) i e c (some o) cfg st
        = (.ok r, st') := h
    obtain ⟨results, hrows⟩ := archiveBody_sink_rows (rfafN_rows_none f) h'
    refine ⟨remapRows (d ++ "/" ++ b) results, hrows, ?_⟩
    intro row hrow
    obtain ⟨k0, hk0⟩ := remapRows_mem hrow
    constructor
    · exact ⟨get_file_name k0, sepFreeB_get_file_name k0, hk0⟩
    · rw [hk0]
      exact tmp_not_prefix hd hb hbne

/-- C4 witness: the `book.cbr` scenario with a sink — the one appended row
is keyed `d/book.cbr/page1.jpg`. -/
theorem c4_sink_rows_remapped_witness :
    ∃ newRows,
      (⟨[], [("d/book.cbr/page1.jpg", "HELLO")]⟩ : St).rows
        = (⟨[], []⟩ : St).rows ++ newRows ∧
      ∀ row ∈ newRows,
        (∃ n, sepFreeB n = true ∧
          row.1 = ("d" ++ "/" ++ "book.cbr") ++ "/" ++ n) ∧
        ¬ strPrefix
            (pathJoin (dirname ("d" ++ "/" ++ "book.cbr")) "tmp" ++ "/")
            row.1 :=
  c4_sink_rows_remapped 2 "d" "book.cbr" true true
    (Forest.ofList [Node.file "page1.jpg" ["HELLO"] true true .nil]) "o"
    (ConfigValue.config ⟨⟩) ⟨[], []⟩ none
    ⟨[], [("d/book.cbr/page1.jpg", "HELLO")]⟩
    (by decide) (by decide) (by decide)

/-- C5 witness: both merge laws at concrete dictionaries. -/
theorem c5_merge_semantics_witness :
    (dupdate [("a", some ["1"])] [("b", some ["2"]), ("c", none)]).length
      = ([("a", some ["1"])] : ResultSet).length
        + ([("b", some ["2"]), ("c", none)] : ResultSet).length ∧
    dlookup (dupdate [("a", some ["1"])] [("a", some ["2"])]) "a"
      = dlookup [("a", some ["2"])] "a" :=
  ⟨c5_merge_semantics.1 [("a", some ["1"])] [("b", some ["2"]), ("c", none)]
      (by decide) (by decide),
   c5_merge_semantics.2 [("a", some ["1"])] [("a", some ["2"])] "a"
      (by decide) (by decide)⟩

/-- C7 witness: the general skip law at a concrete directory containing one
unrecognized file. -/
theorem c7_skip_unrecognized_witness :
    read_from_directory 3 "dir"
      (Forest.ofList [Node.file "notes.txt" [] true true .nil]) none
      (ConfigValue.config ⟨⟩) ⟨[], []⟩ = (.ok (some []), ⟨[], []⟩) :=
  c7_skip_unrecognized.1 3 "dir"
    (Forest.ofList [Node.file "notes.txt" [] true true .nil])
    (ConfigValue.config ⟨⟩) ⟨[], []⟩ (by decide)

end Comicsocr
